import Mathlib

/-!
Verification of the core algorithms of the git-prompt repository.

The development shallowly embeds:
* `countCommit` (main.go) together with the commit preorder walker it
  consumes, as pure functions over a parent map on numeric commit hashes;
* `BaseBranch` (git/call.go) over branch names modelled as lists of
  characters;
* the `Staged` / `Unstaged` / `Untracked` status-line scanners (git/call.go);
* the configuration resolution loop of main.go over an ordered list of
  optional, fallible configuration sources;
* the memoizing `Call` wrapper of git/call.go as a state-passing function
  with an explicit oracle for the external command.
-/

namespace GitPrompt

/-! ## Ancestry comparison: `countCommit` and the commit walker -/

/-- Commit identifiers are opaque values with decidable equality. -/
abbrev Hash := Nat

/-- Output sequence of the commit preorder iterator
(go-git `NewCommitPreorderIter`): depth-first preorder over parents,
starting at the commits on the stack, skipping commits already seen.
`fuel` bounds the traversal so the function is total; every finite
ancestry is the value at any sufficiently large fuel. -/
def preorderWalk (parents : Hash → List Hash) : Nat → List Hash → List Hash → List Hash
  | 0, _, _ => []
  | _ + 1, [], _ => []
  | fuel + 1, c :: rest, seen =>
    if c ∈ seen then preorderWalk parents fuel rest seen
    else c :: preorderWalk parents fuel (parents c ++ rest) (c :: seen)

/-- Tail phase of the `countCommit` loop once the `to` walker is
exhausted: keep pulling from the `from` walker, checking each pulled
commit against the (now frozen) `to` visited set. -/
def lockstepDrain (toMap acc : List Hash) : List Hash → List Hash → Option Hash × List Hash
  | [], _ => (none, acc)
  | f :: fw', fromMap =>
    if f ∈ toMap then (some f, acc)
    else lockstepDrain toMap acc fw' (f :: fromMap)

/-- The body of the `for` loop of `countCommit` (main.go): advance the
`to` walker and the `from` walker in lockstep, growing both visited sets,
stopping at the first commit found in the other side's set.  Returns the
common commit (if any) together with the accumulated `toArr`. -/
def lockstep : List Hash → List Hash → List Hash → List Hash → List Hash → Option Hash × List Hash
  | [], fw, toMap, fromMap, acc => lockstepDrain toMap acc fw fromMap
  | t :: tw', fw, toMap, fromMap, acc =>
    if t ∈ fromMap then (some t, acc)
    else
      match fw with
      | [] => lockstep tw' [] (t :: toMap) fromMap (acc ++ [t])
      | f :: fw' =>
        if f ∈ t :: toMap then (some f, acc ++ [t])
        else lockstep tw' fw' (t :: toMap) (f :: fromMap) (acc ++ [t])

/-- `countCommit` (main.go lines 32-86): run the lockstep search seeded
with the two tip hashes, then report the index of the common commit in
`toArr` (its length when the common commit was never appended, and also
when no common commit exists). -/
def countCommit (toHash fromHash : Hash) (toWalk fromWalk : List Hash) : Nat :=
  match lockstep toWalk fromWalk [toHash] [fromHash] [] with
  | (none, toArr) => toArr.length
  | (some c, toArr) => toArr.indexOf c

/-- `x` is an ancestor of `a` (or `a` itself) in the commit graph. -/
inductive Reaches (parents : Hash → List Hash) : Hash → Hash → Prop
  | refl (a : Hash) : Reaches parents a a
  | step {a b c : Hash} : b ∈ parents a → Reaches parents b c → Reaches parents a c

/-- `cs` is a linear chain of commits each having the next as its sole
parent, the last one having `b` as its sole parent. -/
def chainTo (parents : Hash → List Hash) : List Hash → Hash → Prop
  | [], _ => False
  | [c], b => parents c = [b]
  | c :: c' :: rest, b => parents c = [c'] ∧ chainTo parents (c' :: rest) b

/-! ### Lemmas about the walker -/

theorem preorderWalk_seen_congr (parents : Hash → List Hash) :
    ∀ (fuel : Nat) (st s₁ s₂ : List Hash), (∀ y, y ∈ s₁ ↔ y ∈ s₂) →
      preorderWalk parents fuel st s₁ = preorderWalk parents fuel st s₂ := by
  intro fuel
  induction fuel with
  | zero => intro st s₁ s₂ _; rfl
  | succ n ih =>
    intro st s₁ s₂ h
    cases st with
    | nil => rfl
    | cons c rest =>
      simp only [preorderWalk]
      by_cases hc : c ∈ s₁
      · rw [if_pos hc, if_pos ((h c).1 hc)]
        exact ih rest s₁ s₂ h
      · rw [if_neg hc, if_neg (fun hx => hc ((h c).2 hx))]
        have hcs : ∀ y, y ∈ c :: s₁ ↔ y ∈ c :: s₂ := by
          intro y
          simp only [List.mem_cons, h y]
        rw [ih (parents c ++ rest) _ _ hcs]

theorem preorderWalk_mem (parents : Hash → List Hash) :
    ∀ (fuel : Nat) (st seen : List Hash) (x : Hash),
      x ∈ preorderWalk parents fuel st seen → ∃ s ∈ st, Reaches parents s x := by
  intro fuel
  induction fuel with
  | zero => intro st seen x hx; simp [preorderWalk] at hx
  | succ n ih =>
    intro st seen x hx
    cases st with
    | nil => simp [preorderWalk] at hx
    | cons c rest =>
      simp only [preorderWalk] at hx
      by_cases hc : c ∈ seen
      · rw [if_pos hc] at hx
        obtain ⟨s, hs, hr⟩ := ih rest seen x hx
        exact ⟨s, List.mem_cons_of_mem _ hs, hr⟩
      · rw [if_neg hc] at hx
        rcases List.mem_cons.1 hx with h | h
        · refine ⟨c, List.mem_cons_self _ _, ?_⟩
          rw [h]
          exact Reaches.refl c
        · obtain ⟨s, hs, hr⟩ := ih _ _ x h
          rcases List.mem_append.1 hs with hp | hp
          · exact ⟨c, List.mem_cons_self _ _, Reaches.step hp hr⟩
          · exact ⟨s, List.mem_cons_of_mem _ hp, hr⟩

theorem preorderWalk_seen_extra (parents : Hash → List Hash) :
    ∀ (fuel : Nat) (st extra seen : List Hash),
      (∀ x ∈ extra, ∀ s ∈ st, ¬ Reaches parents s x) →
      preorderWalk parents fuel st (extra ++ seen) = preorderWalk parents fuel st seen := by
  intro fuel
  induction fuel with
  | zero => intro st extra seen _; rfl
  | succ n ih =>
    intro st extra seen h
    cases st with
    | nil => rfl
    | cons c rest =>
      have hcx : c ∉ extra := fun hc => h c hc c (List.mem_cons_self _ _) (Reaches.refl c)
      simp only [preorderWalk]
      by_cases hc : c ∈ seen
      · rw [if_pos (List.mem_append.2 (Or.inr hc)), if_pos hc]
        exact ih rest extra seen (fun x hx s hs => h x hx s (List.mem_cons_of_mem _ hs))
      · have hcb : c ∉ extra ++ seen := by
          intro hmem
          rcases List.mem_append.1 hmem with hmem | hmem
          · exact hcx hmem
          · exact hc hmem
        rw [if_neg hcb, if_neg hc]
        have hshuffle : ∀ y, y ∈ c :: (extra ++ seen) ↔ y ∈ extra ++ (c :: seen) := by
          intro y
          simp only [List.mem_cons, List.mem_append]
          tauto
        rw [preorderWalk_seen_congr parents n (parents c ++ rest) _ _ hshuffle]
        refine congrArg (List.cons c) (ih (parents c ++ rest) extra (c :: seen) ?_)
        intro x hx s hs hr
        rcases List.mem_append.1 hs with hp | hp
        · exact h x hx c (List.mem_cons_self _ _) (Reaches.step hp hr)
        · exact h x hx s (List.mem_cons_of_mem _ hp) hr

theorem preorderWalk_chain (parents : Hash → List Hash) :
    ∀ (cs : List Hash) (b : Hash) (fuel : Nat) (seen : List Hash) (c : Hash),
      chainTo parents cs b → cs.head? = some c → cs.Nodup → (∀ x ∈ cs, x ∉ seen) →
      preorderWalk parents (cs.length + fuel) [c] seen
        = cs ++ preorderWalk parents fuel [b] (cs.reverse ++ seen) := by
  intro cs
  induction cs with
  | nil =>
    intro b fuel seen c hchain
    exact absurd hchain (by simp [chainTo])
  | cons a cs' ih =>
    intro b fuel seen c hchain hhead hnodup hseen
    have hac : a = c := by simpa using hhead
    subst hac
    have hanotin : a ∉ seen := hseen a (List.mem_cons_self _ _)
    cases cs' with
    | nil =>
      have hpa : parents a = [b] := by simpa [chainTo] using hchain
      simp only [List.length_cons, List.length_nil, Nat.zero_add, Nat.add_comm 1 fuel]
      simp [preorderWalk, hanotin, hpa]
    | cons a' rest =>
      have hchain' : parents a = [a'] ∧ chainTo parents (a' :: rest) b := by
        simpa [chainTo] using hchain
      have hlen : (a :: a' :: rest).length + fuel = ((a' :: rest).length + fuel) + 1 := by
        simp [List.length_cons]
        omega
      rw [hlen]
      simp only [preorderWalk, if_neg hanotin, hchain'.1, List.append_nil]
      have hih := ih b fuel (a :: seen) a' hchain'.2 rfl (List.Nodup.of_cons hnodup) ?_
      · rw [hih]
        simp [List.reverse_cons, List.append_assoc]
      · intro x hx
        simp only [List.mem_cons, not_or]
        constructor
        · intro hxa
          subst hxa
          exact (List.nodup_cons.1 hnodup).1 hx
        · exact hseen x (List.mem_cons_of_mem _ hx)

/-! ### Lemmas about the lockstep loop -/

theorem lockstepDrain_none (toMap acc : List Hash) :
    ∀ (fw fromMap : List Hash), (∀ f ∈ fw, f ∉ toMap) →
      lockstepDrain toMap acc fw fromMap = (none, acc) := by
  intro fw
  induction fw with
  | nil => intro fromMap _; rfl
  | cons f fw' ih =>
    intro fromMap h
    simp only [lockstepDrain, if_neg (h f (List.mem_cons_self _ _))]
    exact ih (f :: fromMap) (fun g hg => h g (List.mem_cons_of_mem _ hg))

theorem lockstep_none :
    ∀ (tw fw toMap fromMap acc : List Hash),
      (∀ x ∈ tw, x ∉ fromMap) → (∀ x ∈ tw, x ∉ fw) → (∀ f ∈ fw, f ∉ toMap) →
      lockstep tw fw toMap fromMap acc = (none, acc ++ tw) := by
  intro tw
  induction tw with
  | nil =>
    intro fw toMap fromMap acc _ _ h3
    simp only [lockstep, List.append_nil]
    exact lockstepDrain_none toMap acc fw fromMap h3
  | cons t tw' ih =>
    intro fw toMap fromMap acc h1 h2 h3
    have ht : t ∉ fromMap := h1 t (List.mem_cons_self _ _)
    cases fw with
    | nil =>
      simp only [lockstep, if_neg ht]
      rw [ih [] (t :: toMap) fromMap (acc ++ [t]) ?_ ?_ ?_]
      · simp
      · exact fun x hx => h1 x (List.mem_cons_of_mem _ hx)
      · simp
      · simp
    | cons f fw' =>
      have hft : f ∉ t :: toMap := by
        simp only [List.mem_cons, not_or]
        exact ⟨fun hf => h2 t (List.mem_cons_self _ _) (hf ▸ List.mem_cons_self _ _),
          h3 f (List.mem_cons_self _ _)⟩
      simp only [lockstep, if_neg ht, if_neg hft]
      rw [ih fw' (t :: toMap) (f :: fromMap) (acc ++ [t]) ?_ ?_ ?_]
      · simp
      · intro x hx
        simp only [List.mem_cons, not_or]
        exact ⟨fun hxf => h2 x (List.mem_cons_of_mem _ hx) (hxf ▸ List.mem_cons_self _ _),
          h1 x (List.mem_cons_of_mem _ hx)⟩
      · exact fun x hx hxf => h2 x (List.mem_cons_of_mem _ hx) (List.mem_cons_of_mem _ hxf)
      · intro g hg
        simp only [List.mem_cons, not_or]
        exact ⟨fun hgt => h2 t (List.mem_cons_self _ _) (hgt ▸ List.mem_cons_of_mem _ hg),
          h3 g (List.mem_cons_of_mem _ hg)⟩

theorem lockstep_to_finds (b : Hash) :
    ∀ (cs rest fw toMap fromMap acc : List Hash),
      b ∈ fromMap → b ∉ toMap → b ∉ cs →
      (∀ x ∈ cs, x ∉ fromMap) → (∀ x ∈ cs, x ∉ fw) → (∀ f ∈ fw, f ∉ toMap) →
      (∀ f ∈ fw, f ∉ cs) →
      lockstep (cs ++ b :: rest) fw toMap fromMap acc = (some b, acc ++ cs) := by
  intro cs
  induction cs with
  | nil =>
    intro rest fw toMap fromMap acc hbf _ _ _ _ _ _
    simp only [List.nil_append, lockstep, if_pos hbf, List.append_nil]
  | cons c cs' ih =>
    intro rest fw toMap fromMap acc hbf hbt hbcs hcf hcw hft hfc
    have hbc : b ≠ c := fun h => hbcs (h ▸ List.mem_cons_self _ _)
    have hbcs' : b ∉ cs' := fun h => hbcs (List.mem_cons_of_mem _ h)
    have hc_notfrom : c ∉ fromMap := hcf c (List.mem_cons_self _ _)
    cases fw with
    | nil =>
      simp only [List.cons_append, lockstep, if_neg hc_notfrom, List.append_eq]
      rw [ih rest [] (c :: toMap) fromMap (acc ++ [c]) hbf ?_ hbcs' ?_ ?_ ?_ ?_]
      · simp
      · simp only [List.mem_cons, not_or]
        exact ⟨hbc, hbt⟩
      · exact fun x hx => hcf x (List.mem_cons_of_mem _ hx)
      · simp
      · simp
      · simp
    | cons f fw' =>
      have hf_cs : f ∉ c :: cs' := hfc f (List.mem_cons_self _ _)
      have hf_not : f ∉ c :: toMap := by
        simp only [List.mem_cons, not_or]
        exact ⟨fun h => hf_cs (h ▸ List.mem_cons_self _ _), hft f (List.mem_cons_self _ _)⟩
      simp only [List.cons_append, lockstep, if_neg hc_notfrom, if_neg hf_not, List.append_eq]
      rw [ih rest fw' (c :: toMap) (f :: fromMap) (acc ++ [c]) ?_ ?_ hbcs' ?_ ?_ ?_ ?_]
      · simp
      · exact List.mem_cons_of_mem _ hbf
      · simp only [List.mem_cons, not_or]
        exact ⟨hbc, hbt⟩
      · intro x hx
        simp only [List.mem_cons, not_or]
        refine ⟨?_, hcf x (List.mem_cons_of_mem _ hx)⟩
        intro hxf
        exact hcw x (List.mem_cons_of_mem _ hx) (hxf ▸ List.mem_cons_self _ _)
      · exact fun x hx hxf => hcw x (List.mem_cons_of_mem _ hx) (List.mem_cons_of_mem _ hxf)
      · intro g hg
        simp only [List.mem_cons, not_or]
        refine ⟨?_, hft g (List.mem_cons_of_mem _ hg)⟩
        intro hgc
        exact hfc g (List.mem_cons_of_mem _ hg) (hgc ▸ List.mem_cons_self _ _)
      · exact fun g hg hgcs => hfc g (List.mem_cons_of_mem _ hg) (List.mem_cons_of_mem _ hgcs)

theorem lockstep_from_finds (b : Hash) :
    ∀ (cs rest tw toMap fromMap acc : List Hash),
      b ∈ toMap →
      (∀ x ∈ tw, x ∉ fromMap) → (∀ x ∈ tw, x ∉ cs) → (∀ x ∈ cs, x ∉ toMap) →
      lockstep tw (cs ++ b :: rest) toMap fromMap acc
        = (some b, acc ++ tw.take (cs.length + 1)) := by
  intro cs
  induction cs with
  | nil =>
    intro rest tw toMap fromMap acc hbt htf _ _
    cases tw with
    | nil => simp [lockstep, lockstepDrain, if_pos hbt]
    | cons t tw' =>
      have ht : t ∉ fromMap := htf t (List.mem_cons_self _ _)
      have hbt' : b ∈ t :: toMap := List.mem_cons_of_mem _ hbt
      simp only [List.nil_append, lockstep]
      rw [if_neg ht, if_pos hbt']
      simp
  | cons c cs' ih =>
    intro rest tw toMap fromMap acc hbt htf htcs hcst
    have hc_to : c ∉ toMap := hcst c (List.mem_cons_self _ _)
    cases tw with
    | nil =>
      have hgoal := ih rest [] toMap (c :: fromMap) acc hbt (by simp) (by simp)
        (fun x hx => hcst x (List.mem_cons_of_mem _ hx))
      simp only [lockstep, lockstepDrain, List.cons_append, if_neg hc_to, List.append_eq]
        at hgoal ⊢
      rw [hgoal]
      simp
    | cons t tw' =>
      have ht : t ∉ fromMap := htf t (List.mem_cons_self _ _)
      have hc_not : c ∉ t :: toMap := by
        simp only [List.mem_cons, not_or]
        exact ⟨fun h => htcs t (List.mem_cons_self _ _) (h ▸ List.mem_cons_self _ _), hc_to⟩
      simp only [List.cons_append, lockstep, if_neg ht, if_neg hc_not, List.append_eq]
      rw [ih rest tw' (t :: toMap) (c :: fromMap) (acc ++ [t]) (List.mem_cons_of_mem _ hbt)
        ?_ ?_ ?_]
      · simp only [List.length_cons, List.take_succ_cons]
        simp
      · intro x hx
        simp only [List.mem_cons, not_or]
        refine ⟨?_, htf x (List.mem_cons_of_mem _ hx)⟩
        intro hxc
        exact htcs x (List.mem_cons_of_mem _ hx) (hxc ▸ List.mem_cons_self _ _)
      · exact fun x hx hxcs => htcs x (List.mem_cons_of_mem _ hx) (List.mem_cons_of_mem _ hxcs)
      · intro d hd
        simp only [List.mem_cons, not_or]
        refine ⟨?_, hcst d (List.mem_cons_of_mem _ hd)⟩
        intro hdt
        exact htcs t (List.mem_cons_self _ _) (hdt ▸ List.mem_cons_of_mem _ hd)

/-! ### Claims C1, C2, C3 -/

/-- C1: for references `a` and `b` where `b` is a strict linear ancestor of
`a` by `n` commits (`cs` is the chain of `n` commits from `a` down to, but
excluding, `b`, and no chain commit lies in `b`'s own ancestry), the
ancestry comparison of `countCommit` reports ahead `= n` and behind `= 0`,
whatever the parent graph below `b` looks like. -/
theorem countCommit_linear_ancestor (parents : Hash → List Hash) (cs : List Hash)
    (a b : Hash) (n fuel : Nat)
    (hchain : chainTo parents cs b) (hhead : cs.head? = some a) (hlen : cs.length = n)
    (hnodup : cs.Nodup) (hstrict : ∀ x ∈ cs, ¬ Reaches parents b x) (hfuel : 0 < fuel) :
    countCommit a b (preorderWalk parents (n + fuel) [a] [])
        (preorderWalk parents fuel [b] []) = n
    ∧ countCommit b a (preorderWalk parents fuel [b] [])
        (preorderWalk parents (n + fuel) [a] []) = 0 := by
  subst hlen
  obtain ⟨k, rfl⟩ : ∃ k, fuel = k + 1 := ⟨fuel - 1, by omega⟩
  have hacs : a ∈ cs := List.mem_of_mem_head? (Option.mem_def.2 hhead)
  have hbcs : b ∉ cs := fun h => hstrict b h (Reaches.refl b)
  have hba : b ≠ a := fun h => hbcs (h ▸ hacs)
  set w := preorderWalk parents (k + 1) [b] [] with hw_def
  have hwreach : ∀ x ∈ w, Reaches parents b x := by
    intro x hx
    obtain ⟨s, hs, hr⟩ := preorderWalk_mem parents (k + 1) [b] [] x hx
    simp only [List.mem_singleton] at hs
    subst hs
    exact hr
  have hdisj : ∀ x ∈ cs, x ∉ w := fun x hx hxw => hstrict x hx (hwreach x hxw)
  have hwalkA : preorderWalk parents (cs.length + (k + 1)) [a] [] = cs ++ w := by
    rw [preorderWalk_chain parents cs b (k + 1) [] a hchain hhead hnodup (by simp)]
    congr 1
    rw [preorderWalk_seen_extra parents (k + 1) [b] cs.reverse [] ?_]
    intro x hx s hs hr
    simp only [List.mem_singleton] at hs
    exact hstrict x (List.mem_reverse.1 hx) (hs ▸ hr)
  have hwcons : w = b :: preorderWalk parents k (parents b ++ []) [b] := by
    simp [hw_def, preorderWalk]
  obtain ⟨tail, htail⟩ : ∃ t, w = b :: t := ⟨_, hwcons⟩
  have hwa : ∀ f ∈ w, f ∉ [a] := by
    intro f hf
    simp only [List.mem_singleton]
    intro hfa
    exact hstrict a hacs (hfa ▸ hwreach f hf)
  have hw_ncs : ∀ f ∈ w, f ∉ cs := fun f hf hfc => hdisj f hfc hf
  have hcs_nb : ∀ x ∈ cs, x ∉ [b] := by
    intro x hx
    simp only [List.mem_singleton]
    exact fun hxb => hbcs (hxb ▸ hx)
  constructor
  · rw [hwalkA, htail]
    simp only [countCommit]
    rw [lockstep_to_finds b cs tail (b :: tail) [a] [b] [] (List.mem_singleton.2 rfl)
      (by simp only [List.mem_singleton]; exact hba) hbcs hcs_nb
      (by rw [← htail]; exact hdisj) (by rw [← htail]; exact hwa)
      (by rw [← htail]; exact hw_ncs)]
    simp [List.indexOf_eq_length.2 hbcs]
  · rw [hwalkA, htail]
    simp only [countCommit]
    rw [lockstep_from_finds b cs tail (b :: tail) [b] [a] [] (List.mem_singleton.2 rfl)
      (by rw [← htail]; exact hwa) (by rw [← htail]; exact hw_ncs) hcs_nb]
    simp [List.take_succ_cons]

/-- Commit graph used by the witness of C1: `0 → 1 → 2`, with `1` the
sole parent of `0` and `2` (shared deeper history) the sole parent of `1`. -/
def witnessParents1 : Hash → List Hash
  | 0 => [1]
  | 1 => [2]
  | _ => []

theorem countCommit_linear_ancestor_witness :
    countCommit 0 1 (preorderWalk witnessParents1 (1 + 3) [0] [])
        (preorderWalk witnessParents1 3 [1] []) = 1
    ∧ countCommit 1 0 (preorderWalk witnessParents1 3 [1] [])
        (preorderWalk witnessParents1 (1 + 3) [0] []) = 0 := by
  refine countCommit_linear_ancestor witnessParents1 [0] 0 1 1 3 ?_ rfl rfl (by decide)
    ?_ (by decide)
  · show witnessParents1 0 = [1]
    rfl
  · intro x hx hreach
    simp only [List.mem_singleton] at hx
    subst hx
    cases hreach with
    | step hmem hr =>
      have hp1 : witnessParents1 1 = [2] := rfl
      rw [hp1] at hmem
      simp only [List.mem_singleton] at hmem
      subst hmem
      cases hr with
      | step hmem2 _ =>
        have hp2 : witnessParents1 2 = [] := rfl
        rw [hp2] at hmem2
        simp at hmem2

/-- C2: for two references resolving to the same commit, the ancestry
comparison returns ahead `= 0` and behind `= 0`: the very first commit
pulled from the `to` walker is already in the `from` visited set. -/
theorem countCommit_equal_refs (parents : Hash → List Hash) (a : Hash) (f₁ f₂ : Nat)
    (h₁ : 0 < f₁) (h₂ : 0 < f₂) :
    countCommit a a (preorderWalk parents f₁ [a] [])
        (preorderWalk parents f₂ [a] []) = 0
    ∧ countCommit a a (preorderWalk parents f₂ [a] [])
        (preorderWalk parents f₁ [a] []) = 0 := by
  obtain ⟨k₁, rfl⟩ : ∃ k, f₁ = k + 1 := ⟨f₁ - 1, by omega⟩
  obtain ⟨k₂, rfl⟩ : ∃ k, f₂ = k + 1 := ⟨f₂ - 1, by omega⟩
  have hw₁ : preorderWalk parents (k₁ + 1) [a] []
      = a :: preorderWalk parents k₁ (parents a ++ []) [a] := by
    simp [preorderWalk]
  have hw₂ : preorderWalk parents (k₂ + 1) [a] []
      = a :: preorderWalk parents k₂ (parents a ++ []) [a] := by
    simp [preorderWalk]
  constructor
  · rw [hw₁]
    simp [countCommit, lockstep]
  · rw [hw₂]
    simp [countCommit, lockstep]

/-- Commit graph used by the witnesses of C2 and C3: every commit is a
root with no parents. -/
def witnessParentsEmpty : Hash → List Hash := fun _ => []

theorem countCommit_equal_refs_witness :
    countCommit 5 5 (preorderWalk witnessParentsEmpty 1 [5] [])
        (preorderWalk witnessParentsEmpty 2 [5] []) = 0
    ∧ countCommit 5 5 (preorderWalk witnessParentsEmpty 2 [5] [])
        (preorderWalk witnessParentsEmpty 1 [5] []) = 0 :=
  countCommit_equal_refs witnessParentsEmpty 5 1 2 (by decide) (by decide)

/-- C3: for two references whose ancestries share no commit, the lockstep
loop terminates with both walkers exhausted (the model is a total
function on the finite walks) and the count reported on the requested
side is the full walked length of that side. -/
theorem countCommit_unrelated (parents : Hash → List Hash) (a b : Hash) (f₁ f₂ : Nat)
    (hshared : ∀ x, Reaches parents a x → Reaches parents b x → False) :
    countCommit a b (preorderWalk parents f₁ [a] [])
        (preorderWalk parents f₂ [b] [])
      = (preorderWalk parents f₁ [a] []).length
    ∧ countCommit b a (preorderWalk parents f₂ [b] [])
        (preorderWalk parents f₁ [a] [])
      = (preorderWalk parents f₂ [b] []).length := by
  set wa := preorderWalk parents f₁ [a] [] with hwa_def
  set wb := preorderWalk parents f₂ [b] [] with hwb_def
  have hra : ∀ x ∈ wa, Reaches parents a x := by
    intro x hx
    obtain ⟨s, hs, hr⟩ := preorderWalk_mem parents f₁ [a] [] x hx
    simp only [List.mem_singleton] at hs
    exact hs ▸ hr
  have hrb : ∀ x ∈ wb, Reaches parents b x := by
    intro x hx
    obtain ⟨s, hs, hr⟩ := preorderWalk_mem parents f₂ [b] [] x hx
    simp only [List.mem_singleton] at hs
    exact hs ▸ hr
  have hab : ∀ x ∈ wa, x ∉ wb := fun x hx hxw => hshared x (hra x hx) (hrb x hxw)
  have hba : ∀ x ∈ wb, x ∉ wa := fun x hx hxw => hshared x (hra x hxw) (hrb x hx)
  have h1 : ∀ x ∈ wa, x ∉ [b] := by
    intro x hx
    simp only [List.mem_singleton]
    intro hxb
    exact hshared x (hra x hx) (by rw [hxb]; exact Reaches.refl b)
  have h2 : ∀ f ∈ wb, f ∉ [a] := by
    intro f hf
    simp only [List.mem_singleton]
    intro hfa
    exact hshared f (by rw [hfa]; exact Reaches.refl a) (hrb f hf)
  constructor
  · simp only [countCommit]
    rw [lockstep_none wa wb [a] [b] [] h1 hab h2]
    simp
  · simp only [countCommit]
    rw [lockstep_none wb wa [b] [a] [] h2 hba h1]
    simp

theorem countCommit_unrelated_witness :
    countCommit 0 1 (preorderWalk witnessParentsEmpty 1 [0] [])
        (preorderWalk witnessParentsEmpty 1 [1] [])
      = (preorderWalk witnessParentsEmpty 1 [0] []).length
    ∧ countCommit 1 0 (preorderWalk witnessParentsEmpty 1 [1] [])
        (preorderWalk witnessParentsEmpty 1 [0] [])
      = (preorderWalk witnessParentsEmpty 1 [1] []).length := by
  refine countCommit_unrelated witnessParentsEmpty 0 1 1 1 ?_
  intro x h0 h1
  have hx0 : x = 0 := by
    cases h0 with
    | refl => rfl
    | step hmem _ => simp [witnessParentsEmpty] at hmem
  have hx1 : x = 1 := by
    cases h1 with
    | refl => rfl
    | step hmem _ => simp [witnessParentsEmpty] at hmem
  rw [hx0] at hx1
  exact absurd hx1 (by decide)

/-! ## Base-branch matching: `BaseBranch` (git/call.go) -/

/-- Branch names and listing lines, modelled as lists of characters. -/
abbrev Str := List Char

/-- Go `strings.SplitN(line, "/", 2)`: split at the first slash; `none`
models the length-one result (no slash in the line), which the loop
skips. -/
def splitFirstSlash : Str → Option (Str × Str)
  | [] => none
  | c :: rest =>
    if c = '/' then some ([], rest)
    else
      match splitFirstSlash rest with
      | none => none
      | some (r, leaf) => some (c :: r, leaf)

/-- The disjunction of the two prefix tests that guard the candidate
update in `BaseBranch`. -/
def matchCandidate (branch leaf : Str) : Bool :=
  (leaf ++ ['/']).isPrefixOf branch || (leaf ++ ['-']).isPrefixOf branch

/-- A remote-listing line is a matching candidate for `branch`. -/
def lineMatches (branch line : Str) : Bool :=
  match splitFirstSlash line with
  | none => false
  | some (_, leaf) => matchCandidate branch leaf

/-- Length of the leaf (the portion after the first slash) of a line. -/
def leafLen (line : Str) : Nat :=
  match splitFirstSlash line with
  | none => 0
  | some (_, leaf) => leaf.length

/-- The scanning loop of `BaseBranch` (git/call.go): track the longest
matched leaf length (`maxMatched`) and the best line so far. -/
def baseBranchScan (branch : Str) : List Str → Nat → Str → Nat × Str
  | [], maxMatched, best => (maxMatched, best)
  | line :: rest, maxMatched, best =>
    match splitFirstSlash line with
    | none => baseBranchScan branch rest maxMatched best
    | some (_, leaf) =>
      if leaf.length < maxMatched then baseBranchScan branch rest maxMatched best
      else if (leaf ++ ['/']).isPrefixOf branch then
        baseBranchScan branch rest leaf.length line
      else if (leaf ++ ['-']).isPrefixOf branch then
        baseBranchScan branch rest leaf.length line
      else baseBranchScan branch rest maxMatched best

/-- `BaseBranch` (git/call.go lines 348-380): scan the remote listing,
fall back to the literal `origin/master` when nothing matched. -/
def baseBranch (branch : Str) (lines : List Str) : Str :=
  let r := baseBranchScan branch lines 0 []
  if r.2 = [] then "origin/master".toList else r.2

/-- The matching condition exactly as the C4 claim words it: the branch
equals the leaf, or extends it with a slash or a hyphen. -/
def specClaimedMatch (branch leaf : Str) : Bool :=
  branch == leaf || (leaf ++ ['/']).isPrefixOf branch || (leaf ++ ['-']).isPrefixOf branch

/-- One step of the selection rule as the C5 claim words it: the later
candidate wins whenever its leaf is at least as long. -/
def pickStep (f : Str → Nat) (best : Option Str) (x : Str) : Option Str :=
  match best with
  | none => some x
  | some b => if f b ≤ f x then some x else some b

/-- The selection rule of the C5 claim: the last candidate among those
with the longest key. -/
def pickLongestLast (f : Str → Nat) (xs : List Str) : Option Str :=
  xs.foldl (pickStep f) none

theorem splitFirstSlash_append (r leaf : Str) (h : '/' ∉ r) :
    splitFirstSlash (r ++ '/' :: leaf) = some (r, leaf) := by
  induction r with
  | nil => simp [splitFirstSlash]
  | cons c r' ih =>
    have hc : ¬(c = '/') := fun hcc => h (hcc ▸ List.mem_cons_self _ _)
    have hih := ih (fun hm => h (List.mem_cons_of_mem _ hm))
    simp only [List.cons_append, splitFirstSlash, if_neg hc, List.append_eq, hih]

theorem foldl_pickStep_some (f : Str → Nat) :
    ∀ (ys : List Str) (x : Str), ∃ rr, ys.foldl (pickStep f) (some x) = some rr := by
  intro ys
  induction ys with
  | nil => intro x; exact ⟨x, rfl⟩
  | cons y ys' ih =>
    intro x
    simp only [List.foldl_cons, pickStep]
    by_cases h : f x ≤ f y
    · rw [if_pos h]; exact ih y
    · rw [if_neg h]; exact ih x

theorem foldl_pickStep_mem (f : Str → Nat) :
    ∀ (ys : List Str) (init : Option Str) (r : Str),
      ys.foldl (pickStep f) init = some r → init = some r ∨ r ∈ ys := by
  intro ys
  induction ys with
  | nil => intro init r h; exact Or.inl h
  | cons y ys' ih =>
    intro init r h
    simp only [List.foldl_cons] at h
    rcases ih (pickStep f init y) r h with hc | hc
    · cases init with
      | none =>
        simp only [pickStep, Option.some_inj] at hc
        cases hc
        exact Or.inr (List.mem_cons_self _ _)
      | some b =>
        simp only [pickStep] at hc
        by_cases hb : f b ≤ f y
        · rw [if_pos hb] at hc
          cases Option.some_inj.1 hc
          exact Or.inr (List.mem_cons_self _ _)
        · rw [if_neg hb] at hc
          exact Or.inl hc
    · exact Or.inr (List.mem_cons_of_mem _ hc)

theorem baseBranchScan_spec (branch : Str) :
    ∀ (lines : List Str) (m : Nat) (best : Str),
      (best = [] ∧ m = 0) ∨ (best ≠ [] ∧ m = leafLen best) →
      (baseBranchScan branch lines m best).2
        = ((lines.filter (lineMatches branch)).foldl (pickStep leafLen)
            (if best = [] then none else some best)).getD best := by
  intro lines
  induction lines with
  | nil =>
    intro m best _
    by_cases hb : best = []
    · simp [baseBranchScan, hb]
    · simp [baseBranchScan, hb]
  | cons l rest ih =>
    intro m best hinv
    cases hsplit : splitFirstSlash l with
    | none =>
      have hlm : lineMatches branch l = false := by simp [lineMatches, hsplit]
      simp only [baseBranchScan, hsplit, List.filter_cons, hlm, Bool.false_eq_true,
        if_neg, ite_false]
      exact ih m best hinv
    | some p =>
      obtain ⟨r, leaf⟩ := p
      have hleaf : leafLen l = leaf.length := by simp [leafLen, hsplit]
      have hlne : l ≠ [] := by
        intro hl
        rw [hl] at hsplit
        simp [splitFirstSlash] at hsplit
      by_cases hth : leaf.length < m
      · have hbest : best ≠ [] ∧ m = leafLen best := by
          rcases hinv with ⟨_, hm⟩ | hb
          · exact absurd hth (by omega)
          · exact hb
        simp only [baseBranchScan, hsplit, if_pos hth]
        rw [ih m best (Or.inr hbest)]
        by_cases hlm : lineMatches branch l = true
        · have hstep : pickStep leafLen (some best) l = some best := by
            simp only [pickStep]
            rw [if_neg]
            rw [hleaf, ← hbest.2]
            omega
          simp [List.filter_cons, hlm, hbest.1, hstep]
        · simp [List.filter_cons, hlm, hbest.1]
      · have hth' : ¬ leaf.length < m := hth
        have hupdate : ∀ hmatch : lineMatches branch l = true,
            ((l :: rest).filter (lineMatches branch)).foldl (pickStep leafLen)
                (if best = [] then none else some best)
              = (rest.filter (lineMatches branch)).foldl (pickStep leafLen) (some l) := by
          intro hmatch
          have hstep : pickStep leafLen (if best = [] then none else some best) l
              = some l := by
            by_cases hb : best = []
            · simp [pickStep, hb]
            · rcases hinv with ⟨hb', _⟩ | ⟨_, hm⟩
              · exact absurd hb' hb
              · simp only [if_neg hb, pickStep]
                rw [if_pos]
                rw [hleaf, ← hm]
                omega
          simp [List.filter_cons, hmatch, hstep]
        by_cases h1 : (leaf ++ ['/']).isPrefixOf branch = true
        · have hlm : lineMatches branch l = true := by
            simp [lineMatches, hsplit, matchCandidate, h1]
          simp only [baseBranchScan, hsplit, if_neg hth', if_pos h1]
          rw [ih leaf.length l (Or.inr ⟨hlne, hleaf.symm⟩), hupdate hlm]
          obtain ⟨rr, hrr⟩ := foldl_pickStep_some leafLen (rest.filter (lineMatches branch)) l
          simp [if_neg hlne, hrr]
        · by_cases h2 : (leaf ++ ['-']).isPrefixOf branch = true
          · have hlm : lineMatches branch l = true := by
              simp [lineMatches, hsplit, matchCandidate, h2]
            simp only [baseBranchScan, hsplit, if_neg hth', if_neg h1, if_pos h2]
            rw [ih leaf.length l (Or.inr ⟨hlne, hleaf.symm⟩), hupdate hlm]
            obtain ⟨rr, hrr⟩ :=
              foldl_pickStep_some leafLen (rest.filter (lineMatches branch)) l
            simp [if_neg hlne, hrr]
          · have hlm : lineMatches branch l = false := by
              simp [lineMatches, hsplit, matchCandidate, h1, h2]
            simp only [baseBranchScan, hsplit, if_neg hth', if_neg h1, if_neg h2]
            rw [ih m best hinv]
            simp [List.filter_cons, hlm]

/-! ### Claims C4, C5, C6 -/

/-- C4, counterexample: the claimed matching condition accepts a branch
exactly equal to the leaf, but the code's condition does not, and the sole
entry `origin/feature` is not selected for branch `feature` — the scan
falls through to the fallback. -/
theorem baseBranch_exact_equality_counterexample :
    specClaimedMatch "feature".toList "feature".toList = true
    ∧ matchCandidate "feature".toList "feature".toList = false
    ∧ baseBranch "feature".toList ["origin/feature".toList]
        = "origin/master".toList := by
  decide

/-- C4, amended: a remote entry `r/leaf` is a matching candidate for the
current branch if and only if the branch starts with `leaf + "/"` or with
`leaf + "-"`; a branch exactly equal to `leaf` does not match.  Stated
through the observable output on a single-entry listing. -/
theorem baseBranch_singleton_match (branch r leaf : Str) (h : '/' ∉ r) :
    baseBranch branch [r ++ '/' :: leaf]
      = if matchCandidate branch leaf then r ++ '/' :: leaf
        else "origin/master".toList := by
  have hsplit := splitFirstSlash_append r leaf h
  have hne : r ++ '/' :: leaf ≠ [] := by simp
  by_cases h1 : (leaf ++ ['/']).isPrefixOf branch = true
  · have hmc : matchCandidate branch leaf = true := by simp [matchCandidate, h1]
    simp [baseBranch, baseBranchScan, hsplit, h1, hne, hmc, Nat.not_lt_zero]
  · by_cases h2 : (leaf ++ ['-']).isPrefixOf branch = true
    · have hmc : matchCandidate branch leaf = true := by simp [matchCandidate, h2]
      simp [baseBranch, baseBranchScan, hsplit, h1, h2, hne, hmc, Nat.not_lt_zero]
    · have hmc : matchCandidate branch leaf = false := by simp [matchCandidate, h1, h2]
      simp [baseBranch, baseBranchScan, hsplit, h1, h2, hmc, Nat.not_lt_zero]

theorem baseBranch_singleton_match_witness :
    baseBranch "feature-123".toList ["origin".toList ++ '/' :: "feature".toList]
      = "origin".toList ++ '/' :: "feature".toList := by
  rw [baseBranch_singleton_match "feature-123".toList "origin".toList "feature".toList
    (by decide)]
  decide

/-- C5: among the matching candidates the scan selects the one whose leaf
is longest, later entries winning ties; in particular branch
`feature-123` against `[origin/main, origin/feature]` selects
`origin/feature`. -/
theorem baseBranch_picks_longest_last :
    (∀ (branch : Str) (lines : List Str),
      baseBranch branch lines
        = (pickLongestLast leafLen (lines.filter (lineMatches branch))).getD
            ("origin/master".toList))
    ∧ baseBranch "feature-123".toList ["origin/main".toList, "origin/feature".toList]
        = "origin/feature".toList := by
  constructor
  · intro branch lines
    have hspec := baseBranchScan_spec branch lines 0 [] (Or.inl ⟨rfl, rfl⟩)
    rw [if_pos rfl] at hspec
    cases hfold : (lines.filter (lineMatches branch)).foldl (pickStep leafLen) none with
    | none =>
      rw [hfold] at hspec
      simp only [Option.getD_none] at hspec
      simp [baseBranch, pickLongestLast, hspec, hfold]
    | some rr =>
      rw [hfold] at hspec
      simp only [Option.getD_some] at hspec
      have hmem := foldl_pickStep_mem leafLen _ none rr hfold
      rcases hmem with hinit | hmem
      · exact absurd hinit (by simp)
      · have hmatch : lineMatches branch rr = true := (List.mem_filter.1 hmem).2
        have hrrne : rr ≠ [] := by
          intro hrr
          rw [hrr] at hmatch
          simp [lineMatches, splitFirstSlash] at hmatch
        simp [baseBranch, pickLongestLast, hspec, hfold, hrrne]
  · decide

/-- C6: when no remote entry matches the current branch (in particular on
the empty listing) the scan never sets a candidate and the result is the
literal fallback `origin/master`; the function is total, so no error is
possible. -/
theorem baseBranch_fallback (branch : Str) (lines : List Str)
    (h : ∀ l ∈ lines, lineMatches branch l = false) :
    baseBranch branch lines = "origin/master".toList := by
  have hspec := baseBranchScan_spec branch lines 0 [] (Or.inl ⟨rfl, rfl⟩)
  have hfilter : lines.filter (lineMatches branch) = [] := by
    rw [List.filter_eq_nil_iff]
    intro a ha
    simp [h a ha]
  rw [if_pos rfl, hfilter] at hspec
  simp only [List.foldl_nil, Option.getD_none] at hspec
  simp [baseBranch, hspec]

theorem baseBranch_fallback_witness :
    baseBranch "topic".toList ([] : List Str) = "origin/master".toList :=
  baseBranch_fallback "topic".toList [] (by intro l hl; simp at hl)

/-! ## Working-tree status flags (git/call.go) -/

/-- Per-line test of `Staged` (git/call.go): first status character is
one of `M`, `D`, `R`, `A`. -/
def stagedLine : Str → Bool
  | [] => false
  | c :: _ => c == 'M' || c == 'D' || c == 'R' || c == 'A'

/-- Per-line test of `Unstaged` (git/call.go): second status character is
`M` or `D`. -/
def unstagedLine : Str → Bool
  | _ :: c :: _ => c == 'M' || c == 'D'
  | _ => false

/-- Per-line test of `Untracked` (git/call.go): the line starts with the
untracked marker. -/
def untrackedLine (l : Str) : Bool := ("??".toList).isPrefixOf l

/-- `Staged`: scan the porcelain status lines for a staged change. -/
def staged (lines : List Str) : Bool := lines.any stagedLine

/-- `Unstaged`: scan the porcelain status lines for an unstaged change. -/
def unstaged (lines : List Str) : Bool := lines.any unstagedLine

/-- `Untracked`: scan the porcelain status lines for an untracked path. -/
def untracked (lines : List Str) : Bool := lines.any untrackedLine

/-! ### Claim C9 -/

/-- C9: in a status listing whose non-header lines all carry the
untracked marker (with at least one of them), the snapshot reports
untracked and reports neither staged nor unstaged: a marker line sets
only the untracked flag. -/
theorem untracked_only_flags (lines : List Str)
    (hall : ∀ l ∈ lines,
      ("##".toList).isPrefixOf l = true ∨ ("??".toList).isPrefixOf l = true)
    (hex : ∃ l ∈ lines, ("??".toList).isPrefixOf l = true) :
    untracked lines = true ∧ staged lines = false ∧ unstaged lines = false := by
  refine ⟨?_, ?_, ?_⟩
  · obtain ⟨l, hl, hp⟩ := hex
    exact List.any_eq_true.2 ⟨l, hl, hp⟩
  · rw [staged, List.any_eq_false]
    intro l hl
    rcases hall l hl with hp | hp <;>
    · obtain ⟨t, ht⟩ := List.isPrefixOf_iff_prefix.1 hp
      subst ht
      simp [stagedLine]
  · rw [unstaged, List.any_eq_false]
    intro l hl
    rcases hall l hl with hp | hp <;>
    · obtain ⟨t, ht⟩ := List.isPrefixOf_iff_prefix.1 hp
      subst ht
      simp [unstagedLine]

theorem untracked_only_flags_witness :
    untracked ["## master".toList, "?? new.txt".toList] = true
    ∧ staged ["## master".toList, "?? new.txt".toList] = false
    ∧ unstaged ["## master".toList, "?? new.txt".toList] = false :=
  untracked_only_flags ["## master".toList, "?? new.txt".toList]
    (by decide) (by decide)

/-! ## Configuration resolution (main.go config loop) -/

/-- A configuration source: `none` when the file does not exist,
`some (.error e)` when it exists but fails to decode (carrying the fatal
message), `some (.ok kvs)` when it decodes to key/value assignments. -/
abbrev ConfigSource := Option (Except String (List (String × String)))

/-- Look up a key among accumulated assignments: the last write wins. -/
def lookupLast (key : String) (kvs : List (String × String)) : Option String :=
  (kvs.reverse.find? (fun kv => kv.1 == key)).map (fun kv => kv.2)

/-- Decode the sources in ascending precedence order into one accumulated
assignment list: a missing source is skipped silently, a decode failure
aborts the whole resolution. -/
def collectConfig : List ConfigSource → Except String (List (String × String))
  | [] => .ok []
  | none :: rest => collectConfig rest
  | some (.error e) :: _ => .error e
  | some (.ok kvs) :: rest => (collectConfig rest).map (fun acc => kvs ++ acc)

/-- The config resolution of main.go: decode every source in ascending
precedence order, then read the final value of the key; the empty string
when no source ever defined it. -/
def resolveConfig (key : String) (sources : List ConfigSource) : Except String String :=
  match collectConfig sources with
  | .error e => .error e
  | .ok kvs => .ok ((lookupLast key kvs).getD "")

theorem lookupLast_append (key : String) (a b : List (String × String)) :
    lookupLast key (a ++ b)
      = match lookupLast key b with
        | some v => some v
        | none => lookupLast key a := by
  cases hb : (b.reverse.find? fun kv => kv.1 == key) with
  | some kv => simp [lookupLast, List.reverse_append, List.find?_append, hb, Option.or]
  | none => simp [lookupLast, List.reverse_append, List.find?_append, hb, Option.or]

theorem collectConfig_append (ss₁ rest : List ConfigSource)
    (h : ∀ s ∈ ss₁, s = none ∨ ∃ l, s = some (.ok l)) :
    ∃ k₁, collectConfig (ss₁ ++ rest)
      = (collectConfig rest).map (fun acc => k₁ ++ acc) := by
  induction ss₁ with
  | nil =>
    refine ⟨[], ?_⟩
    cases hrest : collectConfig rest <;> simp [collectConfig, Except.map, hrest]
  | cons s ss' ih =>
    obtain ⟨k₁, hk₁⟩ := ih (fun x hx => h x (List.mem_cons_of_mem _ hx))
    rcases h s (List.mem_cons_self _ _) with hs | ⟨l, hs⟩
    · subst hs
      exact ⟨k₁, by simpa [collectConfig] using hk₁⟩
    · subst hs
      refine ⟨l ++ k₁, ?_⟩
      have hstep : collectConfig (some (Except.ok l) :: (ss' ++ rest))
          = (collectConfig (ss' ++ rest)).map (fun acc => l ++ acc) := rfl
      rw [List.cons_append, hstep, hk₁]
      cases hrest : collectConfig rest <;> simp [Except.map, hrest, List.append_assoc]

theorem collectConfig_nokey (key : String) (ss : List ConfigSource)
    (h : ∀ s ∈ ss, s = none ∨ ∃ l, s = some (.ok l) ∧ lookupLast key l = none) :
    ∃ kvs, collectConfig ss = .ok kvs ∧ lookupLast key kvs = none := by
  induction ss with
  | nil => exact ⟨[], rfl, by simp [lookupLast]⟩
  | cons s ss' ih =>
    obtain ⟨kvs, hkvs, hnone⟩ := ih (fun x hx => h x (List.mem_cons_of_mem _ hx))
    rcases h s (List.mem_cons_self _ _) with hs | ⟨l, hs, hl⟩
    · subst hs
      exact ⟨kvs, by simpa [collectConfig] using hkvs, hnone⟩
    · subst hs
      refine ⟨l ++ kvs, by simp [collectConfig, hkvs, Except.map], ?_⟩
      rw [lookupLast_append, hnone, hl]

/-! ### Claims C7, C8 -/

/-- C7: a present higher-precedence source's value for the key overwrites
any lower-precedence one (absent sources before it are skipped silently,
sources after it not defining the key leave it alone), and when no source
defines the key the result is the empty string with no error. -/
theorem resolveConfig_precedence :
    (∀ (key v : String) (ss₁ : List ConfigSource) (kvs : List (String × String))
        (ss₂ : List ConfigSource),
      (∀ s ∈ ss₁, s = none ∨ ∃ l, s = some (.ok l)) →
      lookupLast key kvs = some v →
      (∀ s ∈ ss₂, s = none ∨ ∃ l, s = some (.ok l) ∧ lookupLast key l = none) →
      resolveConfig key (ss₁ ++ some (.ok kvs) :: ss₂) = .ok v)
    ∧ (∀ (key : String) (ss : List ConfigSource),
      (∀ s ∈ ss, s = none ∨ ∃ l, s = some (.ok l) ∧ lookupLast key l = none) →
      resolveConfig key ss = .ok "") := by
  constructor
  · intro key v ss₁ kvs ss₂ h₁ h₂ h₃
    obtain ⟨k₁, hk₁⟩ := collectConfig_append ss₁ (some (.ok kvs) :: ss₂) h₁
    obtain ⟨k₂, hk₂, hk₂none⟩ := collectConfig_nokey key ss₂ h₃
    rw [resolveConfig, hk₁]
    simp only [collectConfig, hk₂, Except.map]
    rw [lookupLast_append, lookupLast_append, hk₂none, h₂]
    simp
  · intro key ss h
    obtain ⟨kvs, hkvs, hnone⟩ := collectConfig_nokey key ss h
    rw [resolveConfig, hkvs]
    simp [hnone]

theorem resolveConfig_precedence_witness :
    resolveConfig "email"
        [some (.ok [("email", "a@x")]), none, some (.ok [("email", "b@x")])]
      = .ok "b@x"
    ∧ resolveConfig "email" [some (.ok [("email", "a@x")])] = .ok "a@x"
    ∧ resolveConfig "email" [none, none] = .ok "" := by
  refine ⟨?_, ?_, ?_⟩
  · refine resolveConfig_precedence.1 "email" "b@x"
      [some (.ok [("email", "a@x")]), none] [("email", "b@x")] [] ?_ (by decide) ?_
    · intro s hs
      rcases List.mem_cons.1 hs with rfl | hs
      · exact Or.inr ⟨[("email", "a@x")], rfl⟩
      · simp only [List.mem_singleton] at hs
        exact Or.inl hs
    · intro s hs
      simp at hs
  · refine resolveConfig_precedence.1 "email" "a@x" [] [("email", "a@x")] []
      ?_ (by decide) ?_
    · intro s hs
      simp at hs
    · intro s hs
      simp at hs
  · refine resolveConfig_precedence.2 "email" [none, none] ?_
    intro s hs
    rcases List.mem_cons.1 hs with rfl | hs
    · exact Or.inl rfl
    · simp only [List.mem_singleton] at hs
      exact Or.inl hs

/-- C8: a source that exists but fails to decode aborts the whole
resolution with that error: no value is produced, and the result does not
depend on the later (higher-precedence) sources `ss₂`, which are never
consulted. -/
theorem resolveConfig_parse_error_aborts (key e : String) (ss₁ ss₂ : List ConfigSource)
    (h : ∀ s ∈ ss₁, s = none ∨ ∃ l, s = some (.ok l)) :
    resolveConfig key (ss₁ ++ some (.error e) :: ss₂) = .error e := by
  obtain ⟨k₁, hk₁⟩ := collectConfig_append ss₁ (some (.error e) :: ss₂) h
  rw [resolveConfig, hk₁]
  simp [collectConfig, Except.map]

theorem resolveConfig_parse_error_aborts_witness :
    resolveConfig "email"
        [none, some (.error "user config malformed"), some (.ok [("email", "b@x")])]
      = .error "user config malformed" :=
  resolveConfig_parse_error_aborts "email" "user config malformed" [none]
    [some (.ok [("email", "b@x")])]
    (by intro s hs; simp only [List.mem_singleton] at hs; exact Or.inl hs)

/-! ## Memoizing `Call` (git/call.go) -/

/-- External command output, as a byte list. -/
abbrev Bytes := List Nat

/-- The in-process state of one invocation: the result cache of `Call`
and the number of external command invocations performed so far. -/
structure CallState where
  cache : List (String × Bytes)
  count : Nat

/-- The external `git` binary, modelled as an oracle from invocation
index and argument list to an outcome. -/
abbrev ExecOracle := Nat → List String → Except String Bytes

/-- The cache key of `Call`: the space-joined argument list. -/
def joinKey (args : List String) : String := String.intercalate " " args

/-- `Call` (git/call.go lines 92-106): serve from the cache when the key
is present; otherwise run the external command, caching the output only
on success. -/
def call (exec : ExecOracle) (args : List String) (s : CallState) :
    Except String Bytes × CallState :=
  match s.cache.find? (fun kv => kv.1 == joinKey args) with
  | some kv => (.ok kv.2, s)
  | none =>
    match exec s.count args with
    | .error e => (.error e, { s with count := s.count + 1 })
    | .ok out =>
      (.ok out, { cache := s.cache ++ [(joinKey args, out)], count := s.count + 1 })

/-- Run a sequence of calls for their state effect only. -/
def runCalls (exec : ExecOracle) (argss : List (List String)) (s : CallState) : CallState :=
  argss.foldl (fun st as => (call exec as st).2) s

theorem call_preserves_hit (exec : ExecOracle) (args : List String) (s : CallState)
    (k : String) (kv : String × Bytes)
    (h : s.cache.find? (fun e => e.1 == k) = some kv) :
    ((call exec args s).2).cache.find? (fun e => e.1 == k) = some kv := by
  unfold call
  cases hf : s.cache.find? (fun e => e.1 == joinKey args) with
  | some kv' => simpa using h
  | none =>
    cases hexec : exec s.count args with
    | error e => simpa using h
    | ok out => simp [List.find?_append, h, Option.or]

theorem runCalls_preserves_hit (exec : ExecOracle) (argss : List (List String)) :
    ∀ (s : CallState) (k : String) (kv : String × Bytes),
      s.cache.find? (fun e => e.1 == k) = some kv →
      ((runCalls exec argss s).cache).find? (fun e => e.1 == k) = some kv := by
  induction argss with
  | nil => intro s k kv h; exact h
  | cons as argss' ih =>
    intro s k kv h
    exact ih ((call exec as s).2) k kv (call_preserves_hit exec as s k kv h)

/-! ### Claim C10 -/

/-- C10: after a successful `Call`, any later `Call` in the same
invocation whose argument list has the same space-joined form is served
from the cache: it yields exactly the same byte output and changes
nothing (in particular it performs no new external invocation), whatever
other calls happen in between.  A failed `Call` stores nothing: the cache
is unchanged, the failure consumed one external invocation, and the next
request for the same key runs the external command again. -/
theorem call_memoization :
    (∀ (exec : ExecOracle) (args : List String) (v : Bytes) (s s₁ : CallState),
      call exec args s = (.ok v, s₁) →
      ∀ (other : List (List String)) (args' : List String),
        joinKey args' = joinKey args →
        call exec args' (runCalls exec other s₁)
          = (.ok v, runCalls exec other s₁))
    ∧ (∀ (exec : ExecOracle) (args : List String) (e : String) (s s₁ : CallState),
      call exec args s = (.error e, s₁) →
      s₁.cache = s.cache ∧ s₁.count = s.count + 1
      ∧ ∀ args', joinKey args' = joinKey args →
          ((call exec args' s₁).2).count = s₁.count + 1) := by
  constructor
  · intro exec args v s s₁ hcall other args' hkey
    obtain ⟨kv, hkv, hv2⟩ : ∃ kv, s₁.cache.find? (fun e => e.1 == joinKey args) = some kv
        ∧ kv.2 = v := by
      unfold call at hcall
      cases hf : s.cache.find? (fun e => e.1 == joinKey args) with
      | some kv =>
        rw [hf] at hcall
        simp only [Prod.mk.injEq, Except.ok.injEq] at hcall
        obtain ⟨h1, h2⟩ := hcall
        subst h2
        exact ⟨kv, hf, h1⟩
      | none =>
        rw [hf] at hcall
        cases hexec : exec s.count args with
        | error e =>
          rw [hexec] at hcall
          simp at hcall
        | ok out =>
          rw [hexec] at hcall
          simp only [Prod.mk.injEq, Except.ok.injEq] at hcall
          obtain ⟨h1, h2⟩ := hcall
          subst h1
          subst h2
          refine ⟨(joinKey args, out), ?_, rfl⟩
          simp only [List.find?_append, hf, Option.or]
          simp [List.find?]
    have hhit := runCalls_preserves_hit exec other s₁ (joinKey args) kv hkv
    unfold call
    rw [hkey, hhit]
    simp [hv2]
  · intro exec args e s s₁ hcall
    unfold call at hcall
    cases hf : s.cache.find? (fun x => x.1 == joinKey args) with
    | some kv =>
      rw [hf] at hcall
      simp at hcall
    | none =>
      rw [hf] at hcall
      cases hexec : exec s.count args with
      | ok out =>
        rw [hexec] at hcall
        simp at hcall
      | error e' =>
        rw [hexec] at hcall
        simp only [Prod.mk.injEq, Except.error.injEq] at hcall
        obtain ⟨h1, h2⟩ := hcall
        subst h1
        subst h2
        refine ⟨rfl, rfl, ?_⟩
        intro args' hkey
        have hcache : ({ s with count := s.count + 1 } : CallState).cache = s.cache := rfl
        have hcount : ({ s with count := s.count + 1 } : CallState).count = s.count + 1 :=
          rfl
        simp only [call, hkey, hcache, hcount, hf]
        cases hexec2 : exec (s.count + 1) args' <;> simp

/-- Oracle used by the C10 witness: every invocation succeeds with a
fixed byte output. -/
def witnessExecOk : ExecOracle := fun _ _ => .ok [1, 2, 3]

/-- Oracle used by the C10 witness: every invocation fails. -/
def witnessExecErr : ExecOracle := fun _ _ => .error "boom"

theorem call_memoization_witness :
    call witnessExecOk ["status"] (runCalls witnessExecOk [["log"]]
        { cache := [("status", [1, 2, 3])], count := 1 })
      = (.ok [1, 2, 3], runCalls witnessExecOk [["log"]]
        { cache := [("status", [1, 2, 3])], count := 1 })
    ∧ (CallState.mk [] 1).cache = (CallState.mk [] 0).cache
    ∧ (CallState.mk [] 1).count = (CallState.mk [] 0).count + 1
    ∧ ((call witnessExecErr ["st"] (CallState.mk [] 1)).2).count
        = (CallState.mk [] 1).count + 1 := by
  have h2 := call_memoization.2 witnessExecErr ["st"] "boom"
    (CallState.mk [] 0) (CallState.mk [] 1) (by rfl)
  exact ⟨call_memoization.1 witnessExecOk ["status"] [1, 2, 3]
      (CallState.mk [] 0) (CallState.mk [("status", [1, 2, 3])] 1) (by rfl)
      [["log"]] ["status"] rfl,
    h2.1, h2.2.1, h2.2.2 ["st"] rfl⟩

example : preorderWalk (fun x => if x = 0 then [1] else if x = 1 then [2] else []) 5 [0] []
    = [0, 1, 2] := by decide

example : lockstep [0, 1, 2] [1, 2] [0] [1] [] = (some 1, [0]) := by decide

example : countCommit 0 1 [0, 1, 2] [1, 2] = 1 := by decide

example : countCommit 1 0 [1, 2] [0, 1, 2] = 0 := by decide

example : countCommit 7 7 [7, 3] [7, 3] = 0 := by decide

example : countCommit 0 1 [0, 2] [1, 3] = 2 := by decide

end GitPrompt
